import Mathlib

/-!
Verification of the whisper_flash transcription pipeline.

Shallow embedding of the core dispatch / poll / aggregate engine:
  * src/postprocess.py  `process_results`  (aggregation: grouping, flatten, sort, segmentation)
  * src/gcp_client.py   `postprocess_results` (same algorithm), `upload_chunk`, `main`
    (dispatch window and poll loop)
  * src/proxy_server.py `proxy`
  * src/worker/main.py  `enqueue_chunk`, `get_result`

Python floats are modelled as rationals (ℚ), Python strings as `String` (labels)
or `List Char` (texts that are concatenated and stripped), JSON dictionaries as
structures with the `dict.get` defaults already applied.
-/

namespace WhisperFlash

/-- A word entry of a result file: `{'word': ..., 'start': ..., 'end': ...}`,
with the `dict.get` defaults (`''`, `0`, `0`) already applied. -/
structure Word where
  text : List Char
  wstart : ℚ
  wend : ℚ
deriving DecidableEq, Repr

/-- A segment of a result file: `{'words': [...], 'end': ...}` with defaults applied.
Only the fields read by the aggregator are modelled. -/
structure Seg where
  words : List Word
  segEnd : ℚ
deriving DecidableEq, Repr

/-- The payload of one result file: optional embedded `'speaker'` field and the
`'segments'` list (defaults applied). -/
structure Content where
  speakerField : Option String
  segments : List Seg
deriving DecidableEq, Repr

/-- An entry of `all_words`: word text, adjusted absolute start/end, speaker tag. -/
structure AWord where
  text : List Char
  astart : ℚ
  aend : ℚ
  speaker : String
deriving DecidableEq, Repr

/-- An output phrase `{"speaker": ..., "text": ...}`. -/
structure Phrase where
  speaker : String
  text : List Char
deriving DecidableEq, Repr

/-! ## Python `str.strip()` on character lists -/

/-- The whitespace characters stripped by Python `str.strip()` (ASCII fragment). -/
def isSpaceChar (c : Char) : Bool :=
  c == ' ' || c == '\t' || c == '\n' || c == '\r' || c == Char.ofNat 11 || c == Char.ofNat 12

/-- Python `s.strip()`: drop whitespace from both ends. -/
def pyStrip (l : List Char) : List Char :=
  ((l.dropWhile isSpaceChar).reverse.dropWhile isSpaceChar).reverse

/-! ## Segmentation (postprocess.py lines 65-88)

The loop over `all_words` carrying `current_speaker`, `current_phrase`,
`last_word_end`.  Besides the produced phrase list we also record, per word,
whether the new-phrase branch was taken, so that the claimed boundary
condition can be stated about the code. -/

/-- One pass of the segmentation loop.  `curSp`/`curPh`/`lastEnd` are the
Python loop variables `current_speaker`/`current_phrase`/`last_word_end`.
Returns the emitted phrases together with the per-word branch decisions. -/
def segWalk : List AWord → String → List Char → ℚ → List Phrase × List Bool
  | [], curSp, curPh, _ => (if curPh ≠ [] then [⟨curSp, pyStrip curPh⟩] else [], [])
  | w :: rest, curSp, curPh, lastEnd =>
    if w.speaker ≠ curSp ∨ (1 ≤ w.astart - lastEnd ∧ 0 < lastEnd) then
      let tail := segWalk rest w.speaker w.text w.aend
      ((if curPh ≠ [] then [⟨curSp, pyStrip curPh⟩] else []) ++ tail.1, true :: tail.2)
    else
      let tail := segWalk rest curSp (curPh ++ ' ' :: w.text) w.aend
      (tail.1, false :: tail.2)

/-- `process_results` segmentation phase: initial state from the first word
(`current_speaker = all_words[0]['speaker']`, empty phrase, `last_word_end = 0`). -/
def processWords (all : List AWord) : List Phrase :=
  match all with
  | [] => []
  | w0 :: _ => (segWalk all w0.speaker [] 0).1

/-- The branch decisions of the segmentation loop (`true` = new phrase started). -/
def segBreaks (all : List AWord) : List Bool :=
  match all with
  | [] => []
  | w0 :: _ => (segWalk all w0.speaker [] 0).2

/-- The phrase-boundary condition as implemented: previous word `p`, current
word `c`; split on speaker change, or on a pause of at least the threshold
when the previous word ends at a strictly positive time. -/
def breakB (p c : AWord) : Prop :=
  c.speaker ≠ p.speaker ∨ (1 ≤ c.astart - p.aend ∧ 0 < p.aend)

instance (p c : AWord) : Decidable (breakB p c) := by unfold breakB; infer_instance

/-- The phrase-boundary condition in the claim's words: split on speaker
change, or on a pause of at least the threshold once at least one word has
been walked (which is the case for every non-first word). -/
def claimBreakB (p c : AWord) : Prop :=
  c.speaker ≠ p.speaker ∨ 1 ≤ c.astart - p.aend

instance (p c : AWord) : Decidable (claimBreakB p c) := by unfold claimBreakB; infer_instance

/-- The per-word break decisions the claim predicts: no break before the first
word, then `claimBreakB` on each adjacent pair. -/
def claimBreaks (all : List AWord) : List Bool :=
  match all with
  | [] => []
  | w0 :: rest => false :: ((w0 :: rest).zip rest).map (fun pc => decide (claimBreakB pc.1 pc.2))

/-! ## Flatten phase (postprocess.py lines 30-56)

After grouping and per-speaker sorting, the code interleaves chunks
chunk-index by chunk-index over the speakers in sorted order, appending each
file's words shifted by the single running `cumulative_time`, which then
advances by the last segment's `end` (if any segments). -/

/-- All words of a file's segments, in order (`for segment ...: for word ...`). -/
def contentWords (c : Content) : List Word :=
  c.segments.flatMap (·.words)

/-- `cumulative_time += last_segment.get('end', 0)` guarded by `if segments:`;
a file without segments advances the offset by `0`. -/
def lastSegEnd (c : Content) : ℚ :=
  match c.segments.getLast? with
  | some sg => sg.segEnd
  | none => 0

/-- The `all_words` entries one file contributes at offset `t`: every word
shifted by `t` and tagged `data.get('speaker', speaker)`. -/
def tagShift (sp : String) (t : ℚ) (c : Content) : List AWord :=
  (contentWords c).map (fun w => ⟨w.text, w.wstart + t, w.wend + t, c.speakerField.getD sp⟩)

/-- The flatten loop over the interleaved files, carrying `cumulative_time`. -/
def flattenLoop : List (String × Content) → ℚ → List AWord
  | [], _ => []
  | (sp, c) :: rest, t => tagShift sp t c ++ flattenLoop rest (t + lastSegEnd c)

/-- Specification form of the flatten phase (the amended claim): the words of
each job in scan order are shifted by the running prefix sum, starting at `0`,
of the last-segment end times of the jobs preceding it in scan order. -/
def flattenSpec (jobs : List (String × Content)) : List AWord :=
  (jobs.zip ((jobs.map (fun sc => lastSegEnd sc.2)).scanl (· + ·) 0)).flatMap
    (fun p => tagShift p.1.1 p.2 p.1.2)

/-- Per-track flattening as the claim states it: for every track the offset
starts at 0 and is maintained per track; each job's words are shifted by that
track's offset and tagged with the track's speaker label, and the offset then
advances by the job's last word's chunk-local end time. -/
def flattenPerTrackClaim (g : List (String × List Content)) : List AWord :=
  g.flatMap (fun sc => trackLoop sc.1 sc.2 0)
where
  /-- The claimed last-word advance. -/
  lastWordEnd (c : Content) : ℚ :=
    match (contentWords c).getLast? with
    | some w => w.wend
    | none => 0
  /-- One track processed with its own cumulative offset. -/
  trackLoop (sp : String) : List Content → ℚ → List AWord
    | [], _ => []
    | c :: rest, t =>
      (contentWords c).map (fun w => ⟨w.text, w.wstart + t, w.wend + t, sp⟩) ++
        trackLoop sp rest (t + lastWordEnd c)

/-! ## Grouping (postprocess.py lines 14-41) -/

/-- The filename separator `'_chunk_'`. -/
def chunkSep : List Char := String.toList ("_chunk_")

/-- Index of the last occurrence of `chunkSep` in a stem, if any: the split
position of Python `stem.rsplit('_chunk_', 1)`. -/
def lastSepIdx (stem : List Char) : Option ℕ :=
  (((List.range (stem.length + 1)).filter (fun i => chunkSep.isPrefixOf (stem.drop i)))).getLast?

/-- Python `stem.rsplit('_chunk_', 1)` restricted to the two-part case:
the speaker prefix and the raw chunk-number suffix. -/
def sepSplit (stem : List Char) : Option (List Char × List Char) :=
  (lastSepIdx stem).map (fun i => (stem.take i, stem.drop (i + chunkSep.length)))

/-- Value of a non-empty all-digit character list. -/
def digitsVal (ds : List Char) : Option ℕ :=
  if ds ≠ [] ∧ ds.all (·.isDigit) then
    some (ds.foldl (fun a c => a * 10 + (c.toNat - 48)) 0)
  else none

/-- Python `int(s)` on the fragment the pipeline produces: optional surrounding
whitespace, optional sign, decimal digits.  (Digit-group underscores of Python
numeric literals are not modelled.)  `none` models the `ValueError`. -/
def pyInt (s : List Char) : Option ℤ :=
  match pyStrip s with
  | '+' :: rest => (digitsVal rest).map (fun n => (n : ℤ))
  | '-' :: rest => (digitsVal rest).map (fun n => -(n : ℤ))
  | t => (digitsVal t).map (fun n => (n : ℤ))

/-- Parse a result-file stem into `(speaker, chunk number)`; `none` when the
stem does not split in two at `'_chunk_'` (the file is skipped). -/
def parseName (stem : List Char) : Option (String × ℤ) :=
  (sepSplit stem).bind (fun p => (pyInt p.2).map (fun n => (String.mk p.1, n)))

/-- A stem that splits at `'_chunk_'` but whose suffix is not an integer:
`int(parts[1])` raises and `process_results` crashes. -/
def badStem (stem : List Char) : Bool :=
  match sepSplit stem with
  | some p => (pyInt p.2).isNone
  | none => false

/-- One parsed result file: speaker, chunk number, payload. -/
abbrev Entry := String × ℤ × Content

/-- A result file as enumerated from the directory: stem and payload. -/
structure RFile where
  stem : List Char
  content : Content
deriving DecidableEq, Repr

/-- Grouping and per-speaker sorting, lines 14-28: group the entries by
speaker, sort each speaker's list by chunk number (Python's stable `sort`,
modelled by the stable `insertionSort`), and lay the groups out in sorted
speaker order (`for speaker in sorted(chunks_by_speaker.keys())`; the dict's
insertion order is unobservable because the keys are only ever iterated
sorted and `max` over the values is order-independent). -/
def groupSort (entries : List Entry) : List (String × List Content) :=
  ((entries.map (fun e => e.1)).dedup.insertionSort (· ≤ ·)).map
    (fun s => (s, ((entries.filter (fun e => e.1 = s)).insertionSort
        (fun a b => a.2.1 ≤ b.2.1)).map (fun e => e.2.2)))

/-- `max(len(chunks) ...)` with the empty guard (`... if chunks_by_speaker else 0`). -/
def maxChunks (g : List (String × List Content)) : ℕ :=
  (g.map (fun sc => sc.2.length)).foldr max 0

/-- The interleaved scan order, lines 38-41: for each chunk index below
`maxChunks`, each speaker in sorted order that still has a chunk at that index. -/
def scanOrder (g : List (String × List Content)) : List (String × Content) :=
  (List.range (maxChunks g)).flatMap
    (fun idx => g.filterMap (fun sc => (sc.2.get? idx).map (fun c => (sc.1, c))))

/-! ## Full aggregation pipeline -/

/-- `all_words.sort(key=lambda x: x.get('start', 0))`: Python's sort is
stable; modelled by the stable `insertionSort` by the same key. -/
def sortByStart (l : List AWord) : List AWord :=
  l.insertionSort (fun a b => a.astart ≤ b.astart)

/-- Aggregation from parsed entries: group, interleave, flatten, sort,
segment.  `none` models the "No words found" early return. -/
def processEntries (entries : List Entry) : Option (List Phrase) :=
  let aw := flattenLoop (scanOrder (groupSort entries)) 0
  if aw = [] then none else some (processWords (sortByStart aw))

/-- `process_results` on the enumerated result files.  `none` models both the
crash of `int(parts[1])` on a malformed stem and the "No words found" return. -/
def processResults (files : List RFile) : Option (List Phrase) :=
  if files.any (fun f => badStem f.stem) then none
  else processEntries (files.filterMap
    (fun f => (parseName f.stem).map (fun p => (p.1, p.2, f.content))))

/-! ## Dispatcher (gcp_client.py `main`, lines 270-325)

Per track, the code fills a window of `max_concurrent_jobs` upload futures
over the enumerated chunks in order, then, each time a future completes, it
processes it (records the job unless the upload failed, polls it to a
terminal state, saves the result if completed) and admits the next chunk.
The thread pool is modelled as a transition system: a step picks any
in-flight chunk, finishes it, and admits the next not-yet-submitted chunk;
the per-chunk outcome is an arbitrary function `out`. -/

/-- Outcome of one chunk's upload+poll sequence. -/
inductive JobOutcome where
  | uploadFail
  | completedJob
  | erroredJob
deriving DecidableEq, Repr

/-- `worker_id = i % num_workers` in `upload_chunk`. -/
def workerOf (i n : ℕ) : ℕ := i % n

/-- Dispatcher state: next chunk index to submit, in-flight chunk indices,
submission log (chunk, worker), processed chunks in completion order,
`track_jobs` keys, and the chunks whose result file was written. -/
structure DState where
  nextIdx : ℕ
  inflight : Finset ℕ
  events : List (ℕ × ℕ)
  processed : List ℕ
  jobs : List ℕ
  saved : List ℕ
deriving DecidableEq

/-- `track_jobs[job_info["chunk_id"]] = job_info` happens only when the upload
future returned a job (`if job_info:`); a failed upload adds nothing. -/
def jobAdd (out : ℕ → JobOutcome) (js : List ℕ) (d : ℕ) : List ℕ :=
  match out d with
  | .uploadFail => js
  | _ => js ++ [d]

/-- The result file is written only for `status == "completed"`. -/
def savedAdd (out : ℕ → JobOutcome) (sv : List ℕ) (d : ℕ) : List ℕ :=
  match out d with
  | .completedJob => sv ++ [d]
  | _ => sv

/-- The initial window fill: the first `min maxConc L` chunks are submitted
in order (`for _ in range(max_concurrent_jobs): next(chunk_iterator)`). -/
def initState (L maxConc n : ℕ) : DState :=
  ⟨min maxConc L, Finset.range (min maxConc L),
    (List.range (min maxConc L)).map (fun i => (i, workerOf i n)), [], [], []⟩

/-- One iteration of the completion loop: a done future `d` is processed and
the next chunk (if any) is submitted in its place. -/
inductive DStep (out : ℕ → JobOutcome) (L n : ℕ) : DState → DState → Prop where
  | more (s : DState) (d : ℕ) (hd : d ∈ s.inflight) (hn : s.nextIdx < L) :
      DStep out L n s ⟨s.nextIdx + 1, insert s.nextIdx (s.inflight.erase d),
        s.events ++ [(s.nextIdx, workerOf s.nextIdx n)], s.processed ++ [d],
        jobAdd out s.jobs d, savedAdd out s.saved d⟩
  | last (s : DState) (d : ℕ) (hd : d ∈ s.inflight) (hn : L ≤ s.nextIdx) :
      DStep out L n s ⟨s.nextIdx, s.inflight.erase d, s.events, s.processed ++ [d],
        jobAdd out s.jobs d, savedAdd out s.saved d⟩

/-- States of a run with `L` chunks, window `maxConc`, `n` workers. -/
inductive DReach (out : ℕ → JobOutcome) (L maxConc n : ℕ) : DState → Prop where
  | init : DReach out L maxConc n (initState L maxConc n)
  | step {s s' : DState} : DReach out L maxConc n s → DStep out L n s s' →
      DReach out L maxConc n s'

/-! ## Poll loop (gcp_client.py lines 296-308)

`while job_info["status"] not in ["completed", "error"]: try: poll; if
terminal: break; time.sleep(1) except RequestException: time.sleep(2)`.
The responses the transport would deliver are a finite chronicle; `none`
means the loop is still running after consuming all of them. -/

/-- One poll attempt's outcome as seen by the client. -/
inductive PollResp where
  | transportFail
  | stillQueued
  | respCompleted
  | respErrored
deriving DecidableEq, Repr

/-- The terminal status a response carries, if any
(`true` = completed, `false` = error). -/
def pollTerm : PollResp → Option Bool
  | .respCompleted => some true
  | .respErrored => some false
  | _ => none

/-- The sleep the loop performs after a non-terminal attempt:
`time.sleep(2)` on a transport failure, `time.sleep(1)` otherwise. -/
def pollDelay : PollResp → ℕ
  | .transportFail => 2
  | _ => 1

/-- The poll loop over a chronicle of responses: result (if it terminated)
and the sleeps performed, in order. -/
def pollRun : List PollResp → Option Bool × List ℕ
  | [] => (none, [])
  | r :: rs =>
    match r with
    | .transportFail => ((pollRun rs).1, 2 :: (pollRun rs).2)
    | .stillQueued => ((pollRun rs).1, 1 :: (pollRun rs).2)
    | .respCompleted => (some true, [])
    | .respErrored => (some false, [])

/-! ## Worker API (src/worker/main.py) -/

/-- A stored job status: exactly the objects the worker writes to
`results_store`. -/
inductive WStatus where
  | queued
  | completed (text : List Char)
  | error (message : List Char)
deriving DecidableEq, Repr

/-- `results_store.get(chunk_id)` / `results_store[chunk_id] = v` over the
store as an insertion-ordered association list (Python dict). -/
def storeGet (m : List (String × WStatus)) (k : String) : Option WStatus :=
  match m with
  | [] => none
  | kv :: rest => if kv.1 = k then some kv.2 else storeGet rest k

/-- Dict assignment: update in place if the key exists, else append. -/
def storeSet (m : List (String × WStatus)) (k : String) (v : WStatus) :
    List (String × WStatus) :=
  match m with
  | [] => [(k, v)]
  | kv :: rest => if kv.1 = k then (k, v) :: rest else kv :: storeSet rest k v

/-- Worker state: the results store, the task queue (chunk ids in FIFO
order), and the chunk ids `enqueue_chunk` has returned so far. -/
structure WState where
  store : List (String × WStatus)
  queue : List String
  returned : List String
deriving DecidableEq, Repr

/-- Worker events.  `enqueue` is `enqueue_chunk` succeeding (put on the
queue, write `queued`, return the id); a failed file save raises before any
state change and returns no id, so it is the identity.  `procOk`/`procErr`
are `process_queue` finishing the head task. -/
inductive WStep : WState → WState → Prop where
  | enqueue (s : WState) (id : String) :
      WStep s ⟨storeSet s.store id .queued, s.queue ++ [id], s.returned ++ [id]⟩
  | procOk (s : WState) (id : String) (rest : List String) (text : List Char)
      (h : s.queue = id :: rest) :
      WStep s ⟨storeSet s.store id (.completed text), rest, s.returned⟩
  | procErr (s : WState) (id : String) (rest : List String) (msg : List Char)
      (h : s.queue = id :: rest) :
      WStep s ⟨storeSet s.store id (.error msg), rest, s.returned⟩

/-- Reachable worker states, from the empty store and queue. -/
inductive WReach : WState → Prop where
  | init : WReach ⟨[], [], []⟩
  | step {s s' : WState} : WReach s → WStep s s' → WReach s'

/-- `GET /get_result/{chunk_id}`: `none` models the HTTP 404 raise. -/
def getResult (s : WState) (id : String) : Option WStatus :=
  storeGet s.store id

/-! ## Proxy (src/proxy_server.py `proxy`) -/

/-- `API_KEY` in proxy_server.py. -/
def proxyApiKey : String := "your-super-secret-api-key"

/-- `len(TARGET_URLS)`. -/
def numTargets : ℕ := 4

/-- What the backend call would produce: an exception, or a response with a
status code and an optional `Content-Type` header. -/
inductive BackendOutcome where
  | exn
  | ok (status : ℕ) (contentType : Option String)
deriving DecidableEq, Repr

/-- A proxied request: the `X-API-Key` header (absent or its value) and the
worker index from the route (the `int` converter admits only digits). -/
structure ProxyReq where
  apiKey : Option String
  workerId : ℕ
deriving DecidableEq, Repr

/-- The proxy's possible responses. -/
inductive ProxyResult where
  | unauthorized
  | invalidWorker
  | tokenFail
  | gatewayErr
  | pass (status : ℕ) (contentType : String)
deriving DecidableEq, Repr

/-- The HTTP status code of each response. -/
def proxyStatus : ProxyResult → ℕ
  | .unauthorized => 401
  | .invalidWorker => 400
  | .tokenFail => 500
  | .gatewayErr => 502
  | .pass st _ => st

/-- The `proxy` handler: result plus whether the backend was called.
`tokenOk` is whether `get_gcp_token` produced a token.  Reading a missing
`Content-Type` header raises inside the same `try`, hence also 502. -/
def proxyHandle (req : ProxyReq) (tokenOk : Bool) (backend : BackendOutcome) :
    ProxyResult × Bool :=
  if req.apiKey ≠ some proxyApiKey then (.unauthorized, false)
  else if numTargets ≤ req.workerId then (.invalidWorker, false)
  else if ¬ tokenOk then (.tokenFail, false)
  else
    match backend with
    | .exn => (.gatewayErr, true)
    | .ok st ct =>
      match ct with
      | none => (.gatewayErr, true)
      | some c => (.pass st c, true)

/-- The proxy behaviour in the words of the amended claim: 401 on a missing
or mismatched secret before any backend call, 400 on an out-of-range worker
index before any backend call, 500 before any backend call when no identity
token can be obtained, 502 when the backend call (or reading its content
type) fails, and otherwise the backend's status code and content type passed
through unmodified. -/
def proxySpecAmended (req : ProxyReq) (tokenOk : Bool) (backend : BackendOutcome) :
    ProxyResult × Bool :=
  if req.apiKey = some proxyApiKey then
    if req.workerId < numTargets then
      if tokenOk then
        match backend with
        | .ok st (some c) => (.pass st c, true)
        | _ => (.gatewayErr, true)
      else (.tokenFail, false)
    else (.invalidWorker, false)
  else (.unauthorized, false)

/-- The proxy behaviour in the words of the original claim, which has no
identity-token failure case: 401, 400, 502 on backend failure, otherwise
passthrough. -/
def proxySpecClaim (req : ProxyReq) (backend : BackendOutcome) :
    ProxyResult × Bool :=
  if req.apiKey = some proxyApiKey then
    if req.workerId < numTargets then
      match backend with
      | .ok st (some c) => (.pass st c, true)
      | _ => (.gatewayErr, true)
    else (.invalidWorker, false)
  else (.unauthorized, false)

/-! ## Lemmas: segmentation -/

/-- The branch decisions of the segmentation loop are exactly `breakB` on each
adjacent pair, once the loop state is the previous word's speaker and end. -/
theorem segWalk_snd (ws : List AWord) : ∀ (prev : AWord) (ph : List Char),
    (segWalk ws prev.speaker ph prev.aend).2 =
      ((prev :: ws).zip ws).map (fun pc => decide (breakB pc.1 pc.2)) := by
  induction ws with
  | nil => intro prev ph; simp [segWalk]
  | cons w rest ih =>
    intro prev ph
    rw [segWalk]
    by_cases hb : w.speaker ≠ prev.speaker ∨ (1 ≤ w.astart - prev.aend ∧ 0 < prev.aend)
    · rw [if_pos hb]
      have h1 : decide (breakB prev w) = true := decide_eq_true hb
      simp only [List.zip_cons_cons, List.map_cons, h1]
      exact congrArg (true :: ·) (ih w w.text)
    · rw [if_neg hb]
      have h1 : decide (breakB prev w) = false := decide_eq_false hb
      have hsp : w.speaker = prev.speaker := by
        by_contra hne
        exact hb (Or.inl hne)
      simp only [List.zip_cons_cons, List.map_cons, h1]
      have h2 := ih w (ph ++ ' ' :: w.text)
      rw [hsp] at h2
      exact congrArg (false :: ·) h2

/-- The first word never takes the new-phrase branch: the initial state has
`current_speaker = all_words[0]['speaker']` and `last_word_end = 0`. -/
theorem segBreaks_cons (w0 : AWord) (ws : List AWord) :
    segBreaks (w0 :: ws) =
      false :: ((w0 :: ws).zip ws).map (fun pc => decide (breakB pc.1 pc.2)) := by
  have h0 : ¬ (w0.speaker ≠ w0.speaker ∨ (1 ≤ w0.astart - (0 : ℚ) ∧ (0 : ℚ) < 0)) := by
    simp
  rw [segBreaks, segWalk, if_neg h0]
  exact congrArg (false :: ·) (segWalk_snd ws w0 (' ' :: w0.text))

/-! ## Lemmas: non-empty phrases -/

/-- Stripping a list containing a non-whitespace character is non-empty. -/
theorem pyStrip_ne_nil {l : List Char} (h : ∃ c ∈ l, ¬ isSpaceChar c) :
    pyStrip l ≠ [] := by
  obtain ⟨c, hc, hns⟩ := h
  intro hnil
  have h1 : (l.dropWhile isSpaceChar).reverse.dropWhile isSpaceChar = [] := by
    simpa [pyStrip] using hnil
  have h2 : ∀ x ∈ l.dropWhile isSpaceChar, isSpaceChar x := by
    intro x hx
    exact (List.dropWhile_eq_nil_iff.mp h1) x (List.mem_reverse.mpr hx)
  have h3 : c ∈ l.takeWhile isSpaceChar ∨ c ∈ l.dropWhile isSpaceChar := by
    have := List.takeWhile_append_dropWhile (p := isSpaceChar) (l := l)
    rw [← this] at hc
    exact List.mem_append.mp hc
  rcases h3 with h3 | h3
  · exact hns (List.mem_takeWhile_imp h3)
  · exact hns (h2 c h3)

/-- Through the segmentation loop, if every remaining word and the open phrase
contain a non-whitespace character, every emitted phrase has non-empty text,
and something is emitted as soon as there is any material. -/
theorem segWalk_ne_nil (ws : List AWord) :
    ∀ (curSp : String) (ph : List Char) (lastEnd : ℚ),
    (∀ w ∈ ws, ∃ c ∈ w.text, ¬ isSpaceChar c) →
    (ph = [] ∨ ∃ c ∈ ph, ¬ isSpaceChar c) →
    (∀ p ∈ (segWalk ws curSp ph lastEnd).1, p.text ≠ []) ∧
      ((ws ≠ [] ∨ ∃ c ∈ ph, ¬ isSpaceChar c) → (segWalk ws curSp ph lastEnd).1 ≠ []) := by
  induction ws with
  | nil =>
    intro curSp ph lastEnd _ hph
    constructor
    · intro p hp
      rw [segWalk] at hp
      by_cases hne : ph ≠ []
      · rw [if_pos hne] at hp
        rcases hph with rfl | hph
        · exact absurd rfl hne
        · rcases List.mem_singleton.mp hp with rfl
          exact pyStrip_ne_nil hph
      · rw [if_neg hne] at hp
        exact absurd hp (List.not_mem_nil p)
    · rintro (hne | hne)
      · exact absurd rfl hne
      · have hph' : ph ≠ [] := by
          obtain ⟨c, hc, _⟩ := hne
          exact List.ne_nil_of_mem hc
        rw [segWalk, if_pos hph']
        simp
  | cons w rest ih =>
    intro curSp ph lastEnd hall hph
    have hw : ∃ c ∈ w.text, ¬ isSpaceChar c := hall w (List.mem_cons_self w rest)
    have hall' : ∀ x ∈ rest, ∃ c ∈ x.text, ¬ isSpaceChar c :=
      fun x hx => hall x (List.mem_cons_of_mem w hx)
    by_cases hb : w.speaker ≠ curSp ∨ (1 ≤ w.astart - lastEnd ∧ 0 < lastEnd)
    · obtain ⟨tailAll, tailNe⟩ := ih w.speaker w.text w.aend hall' (Or.inr hw)
      rw [segWalk, if_pos hb]
      constructor
      · intro p hp
        rcases List.mem_append.mp hp with hp | hp
        · by_cases hne : ph ≠ []
          · rw [if_pos hne] at hp
            rcases hph with rfl | hph
            · exact absurd rfl hne
            · rcases List.mem_singleton.mp hp with rfl
              exact pyStrip_ne_nil hph
          · rw [if_neg hne] at hp
            exact absurd hp (List.not_mem_nil p)
        · exact tailAll p hp
      · intro _
        have : (segWalk rest w.speaker w.text w.aend).1 ≠ [] := tailNe (Or.inr hw)
        intro hcontra
        exact this (List.append_eq_nil.mp hcontra).2
    · have hph' : ph ++ ' ' :: w.text = [] ∨ ∃ c ∈ ph ++ ' ' :: w.text, ¬ isSpaceChar c := by
        right
        obtain ⟨c, hc, hns⟩ := hw
        exact ⟨c, List.mem_append.mpr (Or.inr (List.mem_cons_of_mem _ hc)), hns⟩
      obtain ⟨tailAll, tailNe⟩ := ih curSp (ph ++ ' ' :: w.text) w.aend hall' hph'
      rw [segWalk, if_neg hb]
      exact ⟨tailAll, fun _ => tailNe (Or.inr (hph'.resolve_left (by simp)))⟩

/-! ## Lemmas: flatten phase -/

/-- The flatten loop computes, for each job, a shift by the running prefix sum
of the preceding last-segment ends, started at `t`. -/
theorem flattenLoop_eq_scanl (jobs : List (String × Content)) : ∀ (t : ℚ),
    flattenLoop jobs t =
      (jobs.zip ((jobs.map (fun sc => lastSegEnd sc.2)).scanl (· + ·) t)).flatMap
        (fun p => tagShift p.1.1 p.2 p.1.2) := by
  induction jobs with
  | nil => intro t; simp [flattenLoop]
  | cons sc rest ih =>
    intro t
    obtain ⟨sp, c⟩ := sc
    rw [flattenLoop, List.map_cons, List.scanl_cons, List.singleton_append,
      List.zip_cons_cons, List.flatMap_cons]
    exact congrArg (tagShift sp t c ++ ·) (ih (t + lastSegEnd c))

/-! ## Lemmas: poll loop -/

/-- The poll loop terminates exactly at the first terminal response, sleeping
the fixed 2 seconds after each transport failure and 1 second after each
`queued` response before it. -/
theorem pollRun_eq (rs : List PollResp) :
    pollRun rs = (rs.findSome? pollTerm,
      (rs.takeWhile (fun r => (pollTerm r).isNone)).map pollDelay) := by
  induction rs with
  | nil => simp [pollRun]
  | cons r rest ih =>
    cases r <;> simp [pollRun, pollTerm, pollDelay, List.findSome?_cons, ih]

/-! ## Lemmas: dispatcher invariant -/

/-- Unfolded form of `jobAdd`. -/
theorem jobAdd_eq (out : ℕ → JobOutcome) (js : List ℕ) (d : ℕ) :
    jobAdd out js d = js ++ (if out d ≠ .uploadFail then [d] else []) := by
  cases h : out d <;> simp [jobAdd, h]

/-- Unfolded form of `savedAdd`. -/
theorem savedAdd_eq (out : ℕ → JobOutcome) (sv : List ℕ) (d : ℕ) :
    savedAdd out sv d = sv ++ (if out d = .completedJob then [d] else []) := by
  cases h : out d <;> simp [savedAdd, h]

/-- The dispatcher run invariant: bounded window, in-order gap-free
submission log, indices in range, the job set is exactly the processed
chunks whose upload succeeded, the saved set exactly those that completed,
and processed chunks are no longer in flight. -/
def dInv (out : ℕ → JobOutcome) (L maxConc n : ℕ) (s : DState) : Prop :=
  s.inflight.card ≤ maxConc ∧
  s.events = (List.range s.nextIdx).map (fun i => (i, workerOf i n)) ∧
  (∀ i ∈ s.inflight, i < s.nextIdx) ∧
  s.nextIdx ≤ L ∧
  (1 ≤ maxConc → s.inflight = ∅ → s.nextIdx = L) ∧
  s.jobs = s.processed.filter (fun i => decide (out i ≠ .uploadFail)) ∧
  s.saved = s.processed.filter (fun i => decide (out i = .completedJob)) ∧
  (∀ i ∈ s.processed, i < s.nextIdx) ∧
  (∀ i ∈ s.processed, i ∉ s.inflight)

theorem dInv_init (out : ℕ → JobOutcome) (L maxConc n : ℕ) :
    dInv out L maxConc n (initState L maxConc n) := by
  refine ⟨?_, rfl, ?_, min_le_right _ _, ?_, rfl, rfl, ?_, ?_⟩
  · simp [initState]
  · intro i hi
    simpa [initState] using Finset.mem_range.mp hi
  · intro hc h0
    rw [initState] at h0 ⊢
    simp only [Finset.range_eq_empty_iff] at h0
    rcases Nat.min_eq_zero_iff.mp h0 with hm | hm
    · omega
    · simp [hm]
  · intro i hi
    simp [initState] at hi
  · intro i hi
    simp [initState] at hi

theorem dInv_step {out : ℕ → JobOutcome} {L maxConc n : ℕ} {s s' : DState}
    (hinv : dInv out L maxConc n s) (hstep : DStep out L n s s') :
    dInv out L maxConc n s' := by
  obtain ⟨h1, h2, h3, h4, h5, h6, h7, h8, h9⟩ := hinv
  cases hstep with
  | more d hd hn =>
    have hdlt : d < s.nextIdx := h3 d hd
    have hnotmem : s.nextIdx ∉ s.inflight.erase d :=
      fun hmem => absurd (h3 _ (Finset.mem_of_mem_erase hmem)) (lt_irrefl _)
    have hcard : (insert s.nextIdx (s.inflight.erase d)).card = s.inflight.card := by
      rw [Finset.card_insert_of_not_mem hnotmem, Finset.card_erase_of_mem hd]
      have : 0 < s.inflight.card := Finset.card_pos.mpr ⟨d, hd⟩
      omega
    refine ⟨by simpa [hcard] using h1, ?_, ?_, hn, ?_, ?_, ?_, ?_, ?_⟩
    · simp only [List.range_succ, List.map_append, h2, List.map_cons, List.map_nil]
    · intro i hi
      rcases Finset.mem_insert.mp hi with rfl | hi
      · exact Nat.lt_succ_self _
      · exact Nat.lt_succ_of_lt (h3 i (Finset.mem_of_mem_erase hi))
    · intro _ hempty
      exact absurd hempty (Finset.insert_ne_empty _ _)
    · rw [jobAdd_eq, h6, List.filter_append]
      cases hout : out d <;> simp [hout]
    · rw [savedAdd_eq, h7, List.filter_append]
      cases hout : out d <;> simp [hout]
    · intro i hi
      rcases List.mem_append.mp hi with hi | hi
      · exact Nat.lt_succ_of_lt (h8 i hi)
      · rcases List.mem_singleton.mp hi with rfl
        exact Nat.lt_succ_of_lt (h3 _ hd)
    · intro i hi hmem
      rcases Finset.mem_insert.mp hmem with rfl | hmem
      · rcases List.mem_append.mp hi with hi | hi
        · exact absurd (h8 _ hi) (lt_irrefl _)
        · rcases List.mem_singleton.mp hi with rfl
          omega
      · rcases List.mem_append.mp hi with hi | hi
        · exact h9 i hi (Finset.mem_of_mem_erase hmem)
        · rcases List.mem_singleton.mp hi with rfl
          exact absurd hmem (Finset.not_mem_erase _ _)
  | last d hd hn =>
    refine ⟨le_trans (Finset.card_le_card (Finset.erase_subset d s.inflight)) h1,
      h2, ?_, h4, fun _ _ => le_antisymm h4 hn, ?_, ?_, ?_, ?_⟩
    · intro i hi
      exact h3 i (Finset.mem_of_mem_erase hi)
    · rw [jobAdd_eq, h6, List.filter_append]
      cases hout : out d <;> simp [hout]
    · rw [savedAdd_eq, h7, List.filter_append]
      cases hout : out d <;> simp [hout]
    · intro i hi
      rcases List.mem_append.mp hi with hi | hi
      · exact h8 i hi
      · rcases List.mem_singleton.mp hi with rfl
        exact h3 _ hd
    · intro i hi hmem
      rcases List.mem_append.mp hi with hi | hi
      · exact h9 i hi (Finset.mem_of_mem_erase hmem)
      · rcases List.mem_singleton.mp hi with rfl
        exact absurd hmem (Finset.not_mem_erase _ _)

theorem dReach_inv {out : ℕ → JobOutcome} {L maxConc n : ℕ} {s : DState}
    (h : DReach out L maxConc n s) : dInv out L maxConc n s := by
  induction h with
  | init => exact dInv_init out L maxConc n
  | step _ hstep ih => exact dInv_step ih hstep

/-- A chunk index below `L` occurs exactly once in the round-robin
submission log of `L` chunks. -/
theorem count_pair_map_range (n i : ℕ) : ∀ L : ℕ, i < L →
    ((List.range L).map (fun j => (j, workerOf j n))).count (i, workerOf i n) = 1 := by
  intro L
  induction L with
  | zero => omega
  | succ k ih =>
    intro hiL
    rw [List.range_succ, List.map_append, List.count_append]
    by_cases hik : i = k
    · subst hik
      have h0 : ((List.range i).map (fun j => (j, workerOf j n))).count
          (i, workerOf i n) = 0 := by
        rw [List.count_eq_zero]
        intro hmem
        obtain ⟨j, hj, hje⟩ := List.mem_map.mp hmem
        have hji : j = i := congrArg Prod.fst hje
        rw [hji] at hj
        exact absurd (List.mem_range.mp hj) (lt_irrefl i)
      rw [h0]
      simp
    · have hik' : i < k := by omega
      rw [ih hik']
      have h0 : ((List.map (fun j => (j, workerOf j n)) [k]).count
          (i, workerOf i n)) = 0 := by
        rw [List.count_eq_zero]
        intro hmem
        obtain ⟨j, hj, hje⟩ := List.mem_map.mp hmem
        have hji : j = i := congrArg Prod.fst hje
        rcases List.mem_singleton.mp hj with rfl
        exact hik hji.symm
      rw [h0]

/-! ## Lemmas: worker store -/

/-- `storeGet` after `storeSet`. -/
theorem storeGet_storeSet (m : List (String × WStatus)) (k : String) (v : WStatus) :
    ∀ k', storeGet (storeSet m k v) k' = if k = k' then some v else storeGet m k' := by
  induction m with
  | nil =>
    intro k'
    by_cases h : k = k' <;> simp [storeSet, storeGet, h]
  | cons kv rest ih =>
    intro k'
    rw [storeSet]
    by_cases h1 : kv.1 = k
    · rw [if_pos h1]
      by_cases h2 : k = k'
      · simp [storeGet, h2]
      · have h3 : ¬ kv.1 = k' := by rw [h1]; exact h2
        simp [storeGet, h2, h3]
    · rw [if_neg h1]
      by_cases h3 : kv.1 = k'
      · have h2 : ¬ k = k' := fun h => h1 (h3.trans h.symm)
        simp [storeGet, h2, h3]
      · simp [storeGet, h3, ih k']

/-- The worker invariant: only returned ids are in the store, every returned
id has a stored status, and every queued id was returned. -/
def wInv (s : WState) : Prop :=
  (∀ id : String, id ∉ s.returned → getResult s id = none) ∧
  (∀ id ∈ s.returned, ∃ st, getResult s id = some st) ∧
  (∀ id ∈ s.queue, id ∈ s.returned)

theorem wInv_step {s s' : WState} (hinv : wInv s) (hstep : WStep s s') : wInv s' := by
  obtain ⟨h1, h2, h3⟩ := hinv
  cases hstep with
  | enqueue id =>
    refine ⟨?_, ?_, ?_⟩
    · intro id' hid'
      have hne : ¬ id = id' := fun h => hid' (List.mem_append.mpr (Or.inr (by simp [h])))
      have hnotold : id' ∉ s.returned := fun h => hid' (List.mem_append.mpr (Or.inl h))
      show storeGet (storeSet s.store id .queued) id' = none
      rw [storeGet_storeSet, if_neg hne]
      exact h1 id' hnotold
    · intro id' hid'
      show ∃ st, storeGet (storeSet s.store id .queued) id' = some st
      rw [storeGet_storeSet]
      by_cases h : id = id'
      · exact ⟨.queued, by rw [if_pos h]⟩
      · rw [if_neg h]
        rcases List.mem_append.mp hid' with hold | hnew
        · exact h2 id' hold
        · rcases List.mem_singleton.mp hnew with rfl
          exact absurd rfl h
    · intro id' hid'
      rcases List.mem_append.mp hid' with hold | hnew
      · exact List.mem_append.mpr (Or.inl (h3 id' hold))
      · exact List.mem_append.mpr (Or.inr hnew)
  | procOk id rest text hq =>
    have hidret : id ∈ s.returned := h3 id (by rw [hq]; exact List.mem_cons_self id rest)
    refine ⟨?_, ?_, ?_⟩
    · intro id' hid'
      have hne : ¬ id = id' := fun h => hid' (h ▸ hidret)
      show storeGet (storeSet s.store id (.completed text)) id' = none
      rw [storeGet_storeSet, if_neg hne]
      exact h1 id' hid'
    · intro id' hid'
      show ∃ st, storeGet (storeSet s.store id (.completed text)) id' = some st
      rw [storeGet_storeSet]
      by_cases h : id = id'
      · exact ⟨.completed text, by rw [if_pos h]⟩
      · rw [if_neg h]
        exact h2 id' hid'
    · intro id' hid'
      exact h3 id' (by rw [hq]; exact List.mem_cons_of_mem id hid')
  | procErr id rest msg hq =>
    have hidret : id ∈ s.returned := h3 id (by rw [hq]; exact List.mem_cons_self id rest)
    refine ⟨?_, ?_, ?_⟩
    · intro id' hid'
      have hne : ¬ id = id' := fun h => hid' (h ▸ hidret)
      show storeGet (storeSet s.store id (.error msg)) id' = none
      rw [storeGet_storeSet, if_neg hne]
      exact h1 id' hid'
    · intro id' hid'
      show ∃ st, storeGet (storeSet s.store id (.error msg)) id' = some st
      rw [storeGet_storeSet]
      by_cases h : id = id'
      · exact ⟨.error msg, by rw [if_pos h]⟩
      · rw [if_neg h]
        exact h2 id' hid'
    · intro id' hid'
      exact h3 id' (by rw [hq]; exact List.mem_cons_of_mem id hid')

theorem wReach_inv {s : WState} (h : WReach s) : wInv s := by
  induction h with
  | init =>
    refine ⟨fun id _ => rfl, ?_, ?_⟩
    · intro id hid
      simp at hid
    · intro id hid
      simp at hid
  | step _ hstep ih => exact wInv_step ih hstep

/-! ## Lemmas: order-invariance of grouping -/

/-- Two lists that are permutations of each other, have pairwise-distinct
sort keys, and are both sorted by those keys, are equal. -/
theorem eq_of_perm_sorted_nodup_key {α : Type} {κ : Type} [LinearOrder κ]
    (key : α → κ) : ∀ (l l' : List α), l.Perm l' → (l.map key).Nodup →
    l.Pairwise (fun a b => key a ≤ key b) → l'.Pairwise (fun a b => key a ≤ key b) →
    l = l' := by
  intro l
  induction l with
  | nil =>
    intro l' hp _ _ _
    exact (hp.nil_eq).symm ▸ rfl
  | cons a t ih =>
    intro l' hp hnd hs hs'
    cases l' with
    | nil => exact absurd hp.eq_nil (by simp)
    | cons b t' =>
      have hab : a = b := by
        have hbmem : b ∈ a :: t := hp.mem_iff.mpr (List.mem_cons_self b t')
        have hamem : a ∈ b :: t' := hp.subset (List.mem_cons_self a t)
        rcases List.mem_cons.mp hbmem with h | hbt
        · exact h.symm
        rcases List.mem_cons.mp hamem with h | hat'
        · exact h
        have hle1 : key a ≤ key b := (List.pairwise_cons.mp hs).1 b hbt
        have hle2 : key b ≤ key a := (List.pairwise_cons.mp hs').1 a hat'
        have hkey : key a = key b := le_antisymm hle1 hle2
        have : key a ∈ t.map key := hkey ▸ List.mem_map_of_mem key hbt
        exact absurd this (List.nodup_cons.mp (by simpa using hnd)).1
      subst hab
      have hp' : t.Perm t' := hp.cons_inv
      have hnd' : (t.map key).Nodup := (List.nodup_cons.mp (by simpa using hnd)).2
      rw [ih t' hp' hnd' (List.Pairwise.of_cons hs) (List.Pairwise.of_cons hs')]

/-- `insertionSort` by a key with no duplicates depends only on the multiset
of elements. -/
theorem insertionSort_key_perm_eq {α : Type} {κ : Type} [LinearOrder κ]
    (key : α → κ) (l l' : List α) (hp : l.Perm l')
    (hnd : (l.map key).Nodup) :
    l.insertionSort (fun a b => key a ≤ key b) =
      l'.insertionSort (fun a b => key a ≤ key b) := by
  haveI : IsTotal α (fun a b => key a ≤ key b) := ⟨fun a b => le_total (key a) (key b)⟩
  haveI : IsTrans α (fun a b => key a ≤ key b) := ⟨fun a b c h1 h2 => le_trans h1 h2⟩
  have hps : (l.insertionSort (fun a b => key a ≤ key b)).Perm
      (l'.insertionSort (fun a b => key a ≤ key b)) :=
    ((List.perm_insertionSort _ l).trans hp).trans (List.perm_insertionSort _ l').symm
  have hnds : ((l.insertionSort (fun a b => key a ≤ key b)).map key).Nodup :=
    (((List.perm_insertionSort _ l).map key).nodup_iff).mpr hnd
  exact eq_of_perm_sorted_nodup_key key _ _ hps hnds
    (List.sorted_insertionSort _ l) (List.sorted_insertionSort _ l')

/-- If the `(speaker, chunk)` keys of the entries are pairwise distinct, so
are the chunk numbers among the entries of one speaker. -/
theorem nodup_num_of_filter_speaker (s : String) : ∀ (l : List Entry),
    (l.map (fun e => (e.1, e.2.1))).Nodup →
    ((l.filter (fun e => e.1 = s)).map (fun e => e.2.1)).Nodup := by
  intro l
  induction l with
  | nil => intro _; simp
  | cons e t ih =>
    intro hnd
    rw [List.map_cons, List.nodup_cons] at hnd
    by_cases hs : e.1 = s
    · rw [List.filter_cons_of_pos (by simpa using hs), List.map_cons, List.nodup_cons]
      refine ⟨?_, ih hnd.2⟩
      intro hmem
      obtain ⟨e', he'mem, he'eq⟩ := List.mem_map.mp hmem
      have he't : e' ∈ t := List.mem_of_mem_filter he'mem
      have he's : e'.1 = s := by simpa using List.of_mem_filter he'mem
      have : (e.1, e.2.1) = (e'.1, e'.2.1) := by
        rw [hs, he's, he'eq]
      exact hnd.1 (this ▸ List.mem_map_of_mem (fun e => (e.1, e.2.1)) he't)
    · rw [List.filter_cons_of_neg (by simpa using hs)]
      exact ih hnd.2

/-- `groupSort` depends only on the multiset of entries, provided the
`(speaker, chunk)` keys are pairwise distinct. -/
theorem groupSort_perm_eq (entries entries' : List Entry)
    (hp : entries.Perm entries')
    (hnd : (entries.map (fun e => (e.1, e.2.1))).Nodup) :
    groupSort entries = groupSort entries' := by
  have hsp : (entries.map (fun e => e.1)).dedup.insertionSort (· ≤ ·) =
      (entries'.map (fun e => e.1)).dedup.insertionSort (· ≤ ·) := by
    have h1 : (entries.map (fun e => e.1)).dedup.Perm (entries'.map (fun e => e.1)).dedup :=
      (hp.map (fun e => e.1)).dedup
    have h2 : ((entries.map (fun e => e.1)).dedup.map id).Nodup := by
      simpa using List.nodup_dedup (entries.map (fun e => e.1))
    exact insertionSort_key_perm_eq id _ _ h1 h2
  rw [groupSort, groupSort, hsp]
  refine List.map_congr_left (fun s _ => ?_)
  have hfil : (entries.filter (fun e => e.1 = s)).Perm
      (entries'.filter (fun e => e.1 = s)) := hp.filter _
  have hnum : ((entries.filter (fun e => e.1 = s)).map (fun e => e.2.1)).Nodup :=
    nodup_num_of_filter_speaker s entries hnd
  rw [insertionSort_key_perm_eq (fun e : Entry => e.2.1) _ _ hfil hnum]

/-- The whole entry-level aggregation depends only on the multiset of
entries, provided the `(speaker, chunk)` keys are pairwise distinct. -/
theorem processEntries_perm_eq (entries entries' : List Entry)
    (hp : entries.Perm entries')
    (hnd : (entries.map (fun e => (e.1, e.2.1))).Nodup) :
    processEntries entries = processEntries entries' := by
  rw [processEntries, processEntries, groupSort_perm_eq entries entries' hp hnd]

/-- `List.any` is permutation-invariant. -/
theorem perm_any_eq {α : Type} {l l' : List α} (hp : l.Perm l') (p : α → Bool) :
    l.any p = l'.any p := by
  by_cases h : l.any p = true
  · rw [h]
    obtain ⟨a, ha, hpa⟩ := List.any_eq_true.mp h
    exact (List.any_eq_true.mpr ⟨a, hp.subset ha, hpa⟩).symm
  · have h1 : l.any p = false := Bool.not_eq_true _ ▸ (by simpa using h)
    rw [h1]
    symm
    rw [List.any_eq_false]
    intro a ha
    exact (List.any_eq_false.mp h1) a (hp.symm.subset ha)

/-- The keys of the parsed entries of a file list are exactly the parse
results of its stems. -/
theorem entries_key_map (files : List RFile) :
    ((files.filterMap (fun f => (parseName f.stem).map
        (fun p => (p.1, p.2, f.content)))).map (fun e => (e.1, e.2.1))) =
      files.filterMap (fun f => parseName f.stem) := by
  rw [List.map_filterMap]
  refine List.filterMap_congr (fun f _ => ?_)
  cases parseName f.stem <;> simp

/-! ## Claim C1 -/

/-- C1 counterexample: on two one-chunk tracks `a` (last word ends at 1, last
segment at 2) and `b` (whose file embeds speaker `z`), the code's flatten
phase and the claimed per-track flatten produce different word sets: the code
shifts `b`'s words by `a`'s last-segment end through the single shared
offset and tags them with the embedded label, while the claim predicts shift
0 and the track label. -/
theorem claimC1_counterexample :
    Multiset.ofList (flattenLoop (scanOrder
      [(("a"), [⟨none, [⟨[⟨['x'], 0, 1⟩], 2⟩]⟩]),
       (("b"), [⟨some ("z"), [⟨[⟨['y'], 0, 1⟩], 1⟩]⟩])]) 0) ≠
    Multiset.ofList (flattenPerTrackClaim
      [(("a"), [⟨none, [⟨[⟨['x'], 0, 1⟩], 2⟩]⟩]),
       (("b"), [⟨some ("z"), [⟨[⟨['y'], 0, 1⟩], 1⟩]⟩])]) :=
  of_decide_eq_true (by with_unfolding_all rfl)

/-- C1 (amended): in the flatten phase a single cumulative offset, starting
at 0, is shared across all tracks: each job of the interleaved scan has its
words shifted by the prefix sum of the last-segment end times of all jobs
preceding it in scan order and tagged with the file's embedded speaker label
(falling back to the track label); the offset advances by the job's last
segment's end (0 when there are no segments).  Jobs without a result file
contribute nothing and do not advance the offset, as they are absent from
the input. -/
theorem claimC1_amended (entries : List Entry) :
    flattenLoop (scanOrder (groupSort entries)) 0 =
      flattenSpec (scanOrder (groupSort entries)) :=
  flattenLoop_eq_scanl (scanOrder (groupSort entries)) 0

/-! ## Claim C2 -/

/-- C2 counterexample: two same-speaker words, the first ending at time 0,
the second starting at 2.  The claim's condition (gap ≥ threshold and at
least one word already emitted) predicts a split; the code's
`last_word_end > 0` gate does not split. -/
theorem claimC2_counterexample :
    segBreaks [⟨['a'], 0, 0, ("s")⟩, ⟨['b'], 2, 3, ("s")⟩] = [false, false] ∧
    claimBreaks [⟨['a'], 0, 0, ("s")⟩, ⟨['b'], 2, 3, ("s")⟩] = [false, true] :=
  of_decide_eq_true (by with_unfolding_all rfl)

/-- C2 (amended): walking the words, a new phrase starts exactly when the
speaker label differs from the previous word's, or when the gap between the
previous word's end and the current word's start is at least the 1.0s
threshold and the previous word's end time is strictly positive; no break
occurs before the first word. -/
theorem claimC2_amended (w0 : AWord) (ws : List AWord) :
    segBreaks (w0 :: ws) =
      false :: ((w0 :: ws).zip ws).map (fun pc => decide (breakB pc.1 pc.2)) :=
  segBreaks_cons w0 ws

/-! ## Claim C3 -/

/-- C3: in every reachable dispatcher state, at most `maxConc` upload+poll
sequences are in flight, and the submission log is exactly the chunks
`0, ..., nextIdx-1` in dispatch order — no chunk is skipped and the window
is never exceeded. -/
theorem claimC3_window (out : ℕ → JobOutcome) (L maxConc n : ℕ) (s : DState)
    (h : DReach out L maxConc n s) :
    s.inflight.card ≤ maxConc ∧
    s.events.map Prod.fst = List.range s.nextIdx ∧
    s.nextIdx ≤ L := by
  obtain ⟨h1, h2, _, h4, _, _, _, _, _⟩ := dReach_inv h
  refine ⟨h1, ?_, h4⟩
  have hcomp : (Prod.fst ∘ fun i : ℕ => (i, workerOf i n)) = id := rfl
  rw [h2, List.map_map, hcomp, List.map_id]

/-- C3 witness: the freshly initialised window for 3 chunks over 2 slots. -/
theorem claimC3_witness :
    (initState 3 2 2).inflight.card ≤ 2 ∧
    (initState 3 2 2).events.map Prod.fst = List.range (initState 3 2 2).nextIdx ∧
    (initState 3 2 2).nextIdx ≤ 3 :=
  claimC3_window (fun _ => JobOutcome.completedJob) 3 2 2 _ DReach.init

/-! ## Claim C4 -/

/-- C4: for a fixed set of per-chunk job contents with pairwise-distinct
(speaker, chunk order) keys, the aggregator output is identical under every
permutation of the order in which the jobs' result entries arrive. -/
theorem claimC4_completion_order (jobs jobs' : List Entry)
    (hp : jobs.Perm jobs')
    (hnd : (jobs.map (fun e => (e.1, e.2.1))).Nodup) :
    processEntries jobs = processEntries jobs' :=
  processEntries_perm_eq jobs jobs' hp hnd

/-- C4 witness: two one-word jobs in either completion order. -/
theorem claimC4_witness :
    processEntries [(("a"), 0, ⟨none, [⟨[⟨['x'], 0, 1⟩], 1⟩]⟩),
                    (("b"), 0, ⟨none, [⟨[⟨['y'], 0, 1⟩], 1⟩]⟩)] =
    processEntries [(("b"), 0, ⟨none, [⟨[⟨['y'], 0, 1⟩], 1⟩]⟩),
                    (("a"), 0, ⟨none, [⟨[⟨['x'], 0, 1⟩], 1⟩]⟩)] :=
  claimC4_completion_order _ _ (by decide) (by decide)

/-! ## Claim C5 -/

/-- C5: transport failures are recovered locally.  In every reachable
dispatcher state, a chunk whose upload failed is in no job set and no longer
in flight while the submission log still covers every chunk in order, and a
job with an application error status produced no result file yet remains a
terminal member of the job set; the poll loop stops exactly at the first
terminal response, sleeping the fixed 2 seconds after each transport failure
(so any number of transport failures leaves it retrying, never terminated),
and consumes nothing after a terminal status. -/
theorem claimC5_failure_handling (out : ℕ → JobOutcome) (L maxConc n : ℕ)
    (s : DState) (h : DReach out L maxConc n s) :
    (∀ i ∈ s.processed, out i = .uploadFail → i ∉ s.jobs ∧ i ∉ s.inflight) ∧
    s.events.map Prod.fst = List.range s.nextIdx ∧
    (∀ i ∈ s.processed, out i = .erroredJob → i ∉ s.saved ∧ i ∈ s.jobs) ∧
    (∀ rs : List PollResp, pollRun rs = (rs.findSome? pollTerm,
      (rs.takeWhile (fun r => (pollTerm r).isNone)).map pollDelay)) := by
  obtain ⟨_, h2, _, _, _, h6, h7, _, h9⟩ := dReach_inv h
  refine ⟨?_, ?_, ?_, fun rs => pollRun_eq rs⟩
  · intro i hi hfail
    refine ⟨?_, h9 i hi⟩
    rw [h6]
    intro hmem
    have := (List.mem_filter.mp hmem).2
    simp [hfail] at this
  · have hcomp : (Prod.fst ∘ fun i : ℕ => (i, workerOf i n)) = id := rfl
    rw [h2, List.map_map, hcomp, List.map_id]
  · intro i hi herr
    constructor
    · rw [h7]
      intro hmem
      have := (List.mem_filter.mp hmem).2
      simp [herr] at this
    · rw [h6]
      refine List.mem_filter.mpr ⟨hi, ?_⟩
      simp [herr]

/-- C5 witness: a transport failure is slept over for the fixed 2 seconds and
the following error status terminates the loop. -/
theorem claimC5_witness :
    pollRun [PollResp.transportFail, PollResp.respErrored] = (some false, [2]) := by
  rw [(claimC5_failure_handling (fun _ => JobOutcome.completedJob) 2 1 1 _
    DReach.init).2.2.2 [PollResp.transportFail, PollResp.respErrored]]
  decide

/-! ## Claim C6 -/

/-- C6 counterexample: a single word with empty text yields a phrase whose
text is empty — the `if current_phrase:` guard sees the non-empty string
`" "` and emits its strip. -/
theorem claimC6_counterexample :
    processWords [⟨[], 0, 1, ("a")⟩] = [⟨("a"), []⟩] :=
  of_decide_eq_true (by with_unfolding_all rfl)

/-- C6 (amended): if every input word contains a non-whitespace character,
every emitted phrase has non-empty text, and at end of input the open phrase
is emitted, so a non-empty input yields a non-empty transcript. -/
theorem claimC6_amended (ws : List AWord)
    (h : ∀ w ∈ ws, ∃ c ∈ w.text, ¬ isSpaceChar c) :
    (∀ p ∈ processWords ws, p.text ≠ []) ∧ (ws ≠ [] → processWords ws ≠ []) := by
  cases ws with
  | nil => exact ⟨fun p hp => absurd hp (List.not_mem_nil p), fun hne => absurd rfl hne⟩
  | cons w0 rest =>
    have hmain := segWalk_ne_nil (w0 :: rest) w0.speaker [] 0 h (Or.inl rfl)
    exact ⟨fun p hp => hmain.1 p hp, fun _ => hmain.2 (Or.inl (by simp))⟩

/-- C6 witness: a one-word input produces a non-empty transcript. -/
theorem claimC6_witness :
    processWords [⟨['h', 'i'], 0, 1, ("a")⟩] ≠ [] :=
  (claimC6_amended [⟨['h', 'i'], 0, 1, ("a")⟩] (by decide)).2 (by decide)

/-! ## Claim C7 -/

/-- C7: in a finished run (nothing in flight) with `n ≥ 1` workers and a
positive window, the submission log is exactly chunk `i` with worker
`i mod n` for `i = 0, ..., L-1`: each chunk is dispatched exactly once and
the round-robin assignment is fixed for the run. -/
theorem claimC7_round_robin (out : ℕ → JobOutcome) (L maxConc n : ℕ)
    (s : DState) (hn : 1 ≤ n) (hw : 1 ≤ maxConc)
    (h : DReach out L maxConc n s) (hdone : s.inflight = ∅) :
    s.events = (List.range L).map (fun i => (i, workerOf i n)) ∧
    (∀ i, i < L → s.events.count (i, workerOf i n) = 1) ∧
    (∀ e ∈ s.events, e.2 = workerOf e.1 n) := by
  obtain ⟨_, h2, _, _, h5, _, _, _, _⟩ := dReach_inv h
  have hL : s.nextIdx = L := h5 hw hdone
  have hev : s.events = (List.range L).map (fun i => (i, workerOf i n)) := by
    rw [h2, hL]
  refine ⟨hev, ?_, ?_⟩
  · intro i hiL
    rw [hev]
    exact count_pair_map_range n i L hiL
  · intro e he
    rw [hev] at he
    obtain ⟨i, _, rfl⟩ := List.mem_map.mp he
    rfl

/-- C7 witness: the one-chunk, one-worker run after its only completion. -/
theorem claimC7_witness :
    ([((0 : ℕ), (0 : ℕ))] : List (ℕ × ℕ)) = (List.range 1).map (fun i => (i, workerOf i 1)) :=
  (claimC7_round_robin (fun _ => JobOutcome.completedJob) 1 1 1 _
    (by decide) (by decide)
    (DReach.step DReach.init (DStep.last _ 0 (by decide) (by decide)))
    (by decide)).1

/-! ## Claim C8 -/

/-- C8 counterexample: with a valid secret and worker index but no obtainable
identity token, the proxy answers 500 before any backend call, while the
claim ("otherwise passes the backend's status code and content type
through") predicts a passthrough of the backend's 200. -/
theorem claimC8_counterexample :
    proxyHandle ⟨some proxyApiKey, 0⟩ false (.ok 200 (some ("application/json"))) =
      (.tokenFail, false) ∧
    proxySpecClaim ⟨some proxyApiKey, 0⟩ (.ok 200 (some ("application/json"))) =
      (.pass 200 ("application/json"), true) ∧
    proxyStatus .tokenFail = 500 := by
  decide

/-- C8 (amended): the proxy rejects a missing or mismatched shared-secret
header with 401 before any backend call, rejects an out-of-range worker
index with 400 before any backend call, answers 500 before any backend call
when no identity token can be obtained, answers a backend call failure
(including a response without a readable content type) with 502, and
otherwise passes the backend's status code and content type through
unmodified. -/
theorem claimC8_amended (req : ProxyReq) (tokenOk : Bool) (backend : BackendOutcome) :
    proxyHandle req tokenOk backend = proxySpecAmended req tokenOk backend := by
  by_cases hk : req.apiKey = some proxyApiKey
  · by_cases hw : req.workerId < numTargets
    · cases tokenOk
      · simp [proxyHandle, proxySpecAmended, hk, hw]
      · cases backend with
        | exn => simp [proxyHandle, proxySpecAmended, hk, hw]
        | ok st ct => cases ct <;> simp [proxyHandle, proxySpecAmended, hk, hw]
    · simp [proxyHandle, proxySpecAmended, hk, hw, Nat.not_lt.mp hw]
  · simp [proxyHandle, proxySpecAmended, hk]

/-! ## Claim C9 -/

/-- C9: in every reachable worker state, a chunk id never returned by
`enqueue_chunk` answers 404 (no status object), and every id returned by
`enqueue_chunk` has a stored status from that moment on, which is one of
queued, completed, or error. -/
theorem claimC9_get_result (s : WState) (h : WReach s) :
    (∀ id : String, id ∉ s.returned → getResult s id = none) ∧
    (∀ id ∈ s.returned, ∃ st, getResult s id = some st ∧
      (st = .queued ∨ (∃ t, st = .completed t) ∨ (∃ m, st = .error m))) := by
  obtain ⟨h1, h2, _⟩ := wReach_inv h
  refine ⟨h1, ?_⟩
  intro id hid
  obtain ⟨st, hst⟩ := h2 id hid
  refine ⟨st, hst, ?_⟩
  cases st with
  | queued => exact Or.inl rfl
  | completed t => exact Or.inr (Or.inl ⟨t, rfl⟩)
  | error m => exact Or.inr (Or.inr ⟨m, rfl⟩)

/-- C9 witness: after one enqueue of id `x`, querying the never-returned id
`y` yields 404. -/
theorem claimC9_witness :
    getResult ⟨[(("x"), WStatus.queued)], [("x")], [("x")]⟩ ("y") = none :=
  (claimC9_get_result _ (WReach.step WReach.init (WStep.enqueue _ ("x")))).1
    ("y") (by decide)

/-! ## Claim C10 -/

/-- C10 counterexample: the distinct stems `a_chunk_1` and `a_chunk_01`
parse to the same (speaker, chunk) key, and the two enumeration orders of
the same set of result files produce different transcripts. -/
theorem claimC10_counterexample :
    processResults [⟨String.toList ("a_chunk_1"), ⟨none, [⟨[⟨['x'], 0, 1⟩], 1⟩]⟩⟩,
                    ⟨String.toList ("a_chunk_01"), ⟨none, [⟨[⟨['y'], 0, 1⟩], 1⟩]⟩⟩] ≠
    processResults [⟨String.toList ("a_chunk_01"), ⟨none, [⟨[⟨['y'], 0, 1⟩], 1⟩]⟩⟩,
                    ⟨String.toList ("a_chunk_1"), ⟨none, [⟨[⟨['x'], 0, 1⟩], 1⟩]⟩⟩] :=
  of_decide_eq_true (by with_unfolding_all rfl)

/-- C10 (amended): aggregation is a deterministic function of the result
files' contents and names, independent of the filesystem enumeration order,
provided the parsed (speaker, chunk number) keys of the files are pairwise
distinct — as they are for the canonical names the pipeline writes. -/
theorem claimC10_enumeration_order (files files' : List RFile)
    (hp : files.Perm files')
    (hnd : (files.filterMap (fun f => parseName f.stem)).Nodup) :
    processResults files = processResults files' := by
  rw [processResults, processResults, perm_any_eq hp (fun f => badStem f.stem)]
  have hpe : (files.filterMap (fun f => (parseName f.stem).map
      (fun p => (p.1, p.2, f.content)))).Perm
      (files'.filterMap (fun f => (parseName f.stem).map
      (fun p => (p.1, p.2, f.content)))) := hp.filterMap _
  have hnd' : ((files.filterMap (fun f => (parseName f.stem).map
      (fun p => (p.1, p.2, f.content)))).map (fun e => (e.1, e.2.1))).Nodup := by
    rw [entries_key_map]
    exact hnd
  rw [processEntries_perm_eq _ _ hpe hnd']

/-- C10 witness: two well-formed result files in either enumeration order. -/
theorem claimC10_witness :
    processResults [⟨String.toList ("a_chunk_0"), ⟨none, [⟨[⟨['x'], 0, 1⟩], 1⟩]⟩⟩,
                    ⟨String.toList ("b_chunk_0"), ⟨none, [⟨[⟨['y'], 0, 1⟩], 1⟩]⟩⟩] =
    processResults [⟨String.toList ("b_chunk_0"), ⟨none, [⟨[⟨['y'], 0, 1⟩], 1⟩]⟩⟩,
                    ⟨String.toList ("a_chunk_0"), ⟨none, [⟨[⟨['x'], 0, 1⟩], 1⟩]⟩⟩] :=
  claimC10_enumeration_order _ _ (by decide) (by decide)

end WhisperFlash
